import Mathlib

/-!
Verification development for the Hyperliquid trade-ledger service:
position/lifecycle reconstruction (`position-tracker`), taint
classification, attributed-only interval filtering (trades, positions,
PnL), and leaderboard aggregation.

Numeric values (`px`, `sz`, `fee`, PnL, equity) are modelled as exact
rationals, matching the spec's arbitrary-precision decimal data model;
timestamps are naturals (milliseconds).
-/

namespace Ledger

/-! ### decimal utilities (src/utils/decimal.ts) -/

namespace decimal

def add (a b : ℚ) : ℚ := a + b

def multiply (a b : ℚ) : ℚ := a * b

/-- `divide` throws `Division by zero` on a zero divisor; modelled as
`none`. -/
def divide (a b : ℚ) : Option ℚ := if b = 0 then none else some (a / b)

def isZero (a : ℚ) : Bool := a == 0

end decimal

/-! ### Fill (src/types/index.ts) -/

/-- One execution. `side = true` encodes `'B'` (buy). `builderFee`
is `none` when absent. -/
structure Fill where
  timeMs : ℕ
  coin : String
  side : Bool
  px : ℚ
  sz : ℚ
  fee : ℚ
  closedPnl : Option ℚ
  builderFee : Option ℚ
deriving DecidableEq, Repr

/-- `!!(fill.builderFee && parseFloat(fill.builderFee) > 0)`. -/
def isBuilderFill (f : Fill) : Bool :=
  match f.builderFee with
  | none => false
  | some b => decide (0 < b)

/-! ### Average entry price (position-tracker `calculateAvgEntryPx`) -/

/-- Direct transcription of `calculateAvgEntryPx` (`newSize` inlined as
`oldSize + fillSize`). -/
def calculateAvgEntryPx (oldSize oldAvgPx fillSize fillPx : ℚ) : ℚ :=
  if oldSize + fillSize = 0 then 0
  else if oldSize = 0 then fillPx
  else if (0 < oldSize ∧ 0 < fillSize) ∨ (oldSize < 0 ∧ fillSize < 0) then
    (|oldSize| * oldAvgPx + |fillSize| * fillPx) / |oldSize + fillSize|
  else if |oldSize + fillSize| < |oldSize| then oldAvgPx
  else if (0 < oldSize ∧ oldSize + fillSize < 0) ∨ (oldSize < 0 ∧ 0 < oldSize + fillSize) then
    fillPx
  else oldAvgPx

/-- The spec's "share sign" condition on a nonzero old size and a
nonzero signed fill size. -/
def sameSign (a b : ℚ) : Prop := (0 < a ↔ 0 < b)

instance (a b : ℚ) : Decidable (sameSign a b) := by
  unfold sameSign; infer_instance

/-! ### Reconstruction state machine (position-tracker
`reconstructPositionHistory`), as a pure fold over a persistent store. -/

/-- One `position_lifecycles` row for a fixed (user, coin). The row id is
its index in `Store.lifecycles` (`SERIAL` autoincrement). -/
structure Lifecycle where
  startMs : ℕ
  endMs : Option ℕ
  hasBuilderFills : Bool
  hasNonBuilderFills : Bool
deriving DecidableEq, Repr

/-- One `positions` row for a fixed (user, coin), keyed by `timeMs`. -/
structure Snapshot where
  timeMs : ℕ
  netSize : ℚ
  avgEntryPx : ℚ
deriving DecidableEq, Repr

/-- Stored rows for one (user, coin): position snapshots (upserted on
`timeMs`) and lifecycles (`create` appends a fresh row). -/
structure Store where
  positions : List Snapshot
  lifecycles : List Lifecycle
deriving DecidableEq, Repr

/-- `prisma.position.upsert` keyed by `timeMs`: overwrite the existing
row, else append. -/
def upsertPosition (ps : List Snapshot) (s : Snapshot) : List Snapshot :=
  if ps.any (fun p => p.timeMs == s.timeMs) then
    ps.map (fun p => if p.timeMs == s.timeMs then s else p)
  else ps ++ [s]

/-- `prisma.positionLifecycle.update` on row id `i`. -/
def modifyLifecycleAt (f : Lifecycle → Lifecycle) : ℕ → List Lifecycle → List Lifecycle
  | _, [] => []
  | 0, l :: ls => f l :: ls
  | n + 1, l :: ls => l :: modifyLifecycleAt f n ls

/-- The tracker's per-pass mutable locals. -/
structure TrackerState where
  netSize : ℚ
  avgEntryPx : ℚ
  currentLifecycleId : Option ℕ
  hasBuilderFills : Bool
  hasNonBuilderFills : Bool
deriving DecidableEq, Repr

def initialTrackerState : TrackerState :=
  { netSize := 0, avgEntryPx := 0, currentLifecycleId := none
    hasBuilderFills := false, hasNonBuilderFills := false }

/-- The loop body of `reconstructPositionHistory` for one fill. -/
def processFill (store : Store) (st : TrackerState) (fill : Fill) : Store × TrackerState :=
  let fillSize := if fill.side then fill.sz else fill.sz * (-1)
  let oldSize := st.netSize
  let newSize := oldSize + fillSize
  let isBuilder := isBuilderFill fill
  let opened :=
    if oldSize = 0 ∧ ¬ newSize = 0 then
      -- safeguard close of an already-open lifecycle, then create
      let ls1 :=
        match st.currentLifecycleId with
        | some i =>
            modifyLifecycleAt
              (fun l => { l with endMs := some fill.timeMs
                                 hasBuilderFills := st.hasBuilderFills
                                 hasNonBuilderFills := st.hasNonBuilderFills }) i
              store.lifecycles
        | none => store.lifecycles
      let newId := ls1.length
      ({ store with
          lifecycles := ls1 ++
            [{ startMs := fill.timeMs, endMs := none
               hasBuilderFills := isBuilder, hasNonBuilderFills := !isBuilder }] },
       { st with currentLifecycleId := some newId
                 hasBuilderFills := isBuilder
                 hasNonBuilderFills := !isBuilder })
    else
      match st.currentLifecycleId with
      | some _ =>
          (store,
           { st with hasBuilderFills := st.hasBuilderFills || isBuilder
                     hasNonBuilderFills := st.hasNonBuilderFills || !isBuilder })
      | none => (store, st)
  let store1 := opened.1
  let st1 := opened.2
  let avg := calculateAvgEntryPx oldSize st1.avgEntryPx fillSize fill.px
  let st2 := { st1 with avgEntryPx := avg, netSize := newSize }
  let store2 :=
    { store1 with
        positions := upsertPosition store1.positions
          { timeMs := fill.timeMs, netSize := newSize, avgEntryPx := avg } }
  if ¬ oldSize = 0 ∧ newSize = 0 then
    match st2.currentLifecycleId with
    | some i =>
        ({ store2 with
            lifecycles :=
              modifyLifecycleAt
                (fun l => { l with endMs := some fill.timeMs
                                   hasBuilderFills := st2.hasBuilderFills
                                   hasNonBuilderFills := st2.hasNonBuilderFills }) i
                store2.lifecycles },
         { netSize := newSize, avgEntryPx := 0, currentLifecycleId := none
           hasBuilderFills := false, hasNonBuilderFills := false })
    | none => (store2, st2)
  else (store2, st2)

/-- Stable insertion of a fill into a list already sorted by `timeMs`
ascending: the inserted (earlier-in-input) fill lands before fills that
share its timestamp. -/
def insertByTime (f : Fill) : List Fill → List Fill
  | [] => [f]
  | g :: gs => if f.timeMs ≤ g.timeMs then f :: g :: gs else g :: insertByTime f gs

/-- `[...fills].sort((a, b) => a.timeMs - b.timeMs)` — a stable sort by
timestamp ascending. -/
def sortByTime (fills : List Fill) : List Fill := fills.foldr insertByTime []

/-- The trailing "if lifecycle is still open, update it" write of the
pass: persist the accumulated flags on the open row. -/
def flushOpen (r : Store × TrackerState) : Store :=
  match r.2.currentLifecycleId with
  | some i =>
      { r.1 with
          lifecycles :=
            modifyLifecycleAt
              (fun l => { l with hasBuilderFills := r.2.hasBuilderFills
                                 hasNonBuilderFills := r.2.hasNonBuilderFills }) i
              r.1.lifecycles }
  | none => r.1

/-- One reconstruction pass for a fixed (user, coin) against an existing
store. -/
def reconstructInto (store : Store) (fills : List Fill) : Store :=
  if fills = [] then store
  else
    flushOpen ((sortByTime fills).foldl
      (fun (p : Store × TrackerState) f => processFill p.1 p.2 f)
      (store, initialTrackerState))

/-- A reconstruction pass starting from an empty store. -/
def reconstructPositionHistory (fills : List Fill) : Store :=
  reconstructInto { positions := [], lifecycles := [] } fills

/-! ### Taint classification and interval filtering -/

/-- A `position_lifecycles` row as read by the API routes (coin kept). -/
structure CoinLifecycle where
  coin : String
  startMs : ℕ
  endMs : Option ℕ
  hasBuilderFills : Bool
  hasNonBuilderFills : Bool
deriving DecidableEq, Repr

/-- `isTainted`: has both builder and non-builder fills. -/
def isTainted (l : CoinLifecycle) : Bool := l.hasBuilderFills && l.hasNonBuilderFills

/-- An exclusion interval `{start, end}` pushed into `taintedRanges`. -/
structure TaintRange where
  startMs : ℕ
  endMs : Option ℕ
deriving DecidableEq, Repr

/-- `fill.timeMs >= range.start && (range.end === null || fill.timeMs <=
range.end)`. -/
def inTaintRange (t : ℕ) (r : TaintRange) : Bool :=
  decide (r.startMs ≤ t) &&
    (match r.endMs with
     | none => true
     | some e => decide (t ≤ e))

/-- `taintedRanges[coin] || []`: tainted lifecycles of that coin, in
lifecycle order. -/
def taintedRangesFor (ls : List CoinLifecycle) (coin : String) : List TaintRange :=
  (ls.filter (fun l => isTainted l && l.coin == coin)).map
    (fun l => { startMs := l.startMs, endMs := l.endMs })

/-- The per-fill predicate of the builder-only fill filter in
`/v1/trades` and `/v1/pnl` (and the leaderboard's per-user filter). -/
def includeFill (ls : List CoinLifecycle) (f : Fill) : Bool :=
  isBuilderFill f && !(taintedRangesFor ls f.coin).any (inTaintRange f.timeMs)

/-- `fills.filter(...)` of the builder-only read paths. -/
def filterFills (ls : List CoinLifecycle) (fills : List Fill) : List Fill :=
  fills.filter (includeFill ls)

/-- One `positions` row as read by `/v1/positions/history`. -/
structure PositionRow where
  coin : String
  timeMs : ℕ
  netSize : ℚ
  avgEntryPx : ℚ
deriving DecidableEq, Repr

/-- `taintedRanges[coin]` of the positions route: every lifecycle of the
coin, tagged with its taint flag, in lifecycle order. -/
def positionRangesFor (ls : List CoinLifecycle) (coin : String) :
    List (TaintRange × Bool) :=
  (ls.filter (fun l => l.coin == coin)).map
    (fun l => ({ startMs := l.startMs, endMs := l.endMs }, isTainted l))

/-- The positions-route visibility loop: the first range containing the
timestamp decides; no containing range excludes. -/
def positionVisibleAux (t : ℕ) : List (TaintRange × Bool) → Bool
  | [] => false
  | (r, tainted) :: rest =>
      if inTaintRange t r then !tainted else positionVisibleAux t rest

/-- The per-snapshot predicate of the builder-only position filter. -/
def positionVisible (ls : List CoinLifecycle) (p : PositionRow) : Bool :=
  positionVisibleAux p.timeMs (positionRangesFor ls p.coin)

/-- `positions.filter(...)` of the builder-only positions route. -/
def filterPositions (ls : List CoinLifecycle) (ps : List PositionRow) : List PositionRow :=
  ps.filter (positionVisible ls)

/-! ### PnL metrics (src/api/pnl.ts) -/

/-- `realizedPnl`: sum of `closedPnl` over fills, missing treated as
absent (skipped). -/
def realizedPnlOf (fills : List Fill) : ℚ :=
  fills.foldl (fun acc f =>
    match f.closedPnl with
    | some p => decimal.add acc p
    | none => acc) 0

/-- The capped return-percentage computation of `/v1/pnl` given a found
equity value at `fromMs`. `maxStartCapital` is a query number: `0` is
falsy in `maxStartCapital ? ... : ...`, so a zero cap is treated as
absent. `none` models the `Division by zero` throw. -/
def returnPctCalc (realizedPnl equityAtFromMs : ℚ) (maxStartCapital : Option ℚ) :
    Option ℚ :=
  if 0 < equityAtFromMs then
    let effectiveCapital :=
      match maxStartCapital with
      | some c => if c = 0 then equityAtFromMs else min equityAtFromMs c
      | none => equityAtFromMs
    (decimal.divide realizedPnl effectiveCapital).map (fun q => decimal.multiply q 100)
  else some 0

/-- `returnPct` of the `/v1/pnl` endpoint: stays `'0'` when `fromMs` is
absent; otherwise the capped computation on the equity found at
`fromMs` (`0` when no snapshot exists). -/
def pnlEndpointReturnPct (hasFromMs : Bool) (equityAtFromMs realizedPnl : ℚ)
    (maxStartCapital : Option ℚ) : Option ℚ :=
  if hasFromMs then returnPctCalc realizedPnl equityAtFromMs maxStartCapital
  else some 0

/-! ### Leaderboard (src/api/leaderboard route) -/

/-- One account's data as seen by the leaderboard route: its fills in
range, its lifecycles in range, and the equity found at `fromMs`. -/
structure LbUser where
  user : String
  fills : List Fill
  lifecycles : List CoinLifecycle
  equity : Option ℚ
deriving DecidableEq, Repr

inductive Metric
  | volume
  | pnl
  | returnPct
deriving DecidableEq, Repr

/-- An entry pushed into `leaderboardData` before sorting. -/
structure LbRow where
  user : String
  metricValue : ℚ
  tradeCount : ℕ
  tainted : Bool
deriving DecidableEq, Repr

/-- A response entry with its 1-based rank. -/
structure LeaderboardEntry where
  rank : ℕ
  user : String
  metricValue : ℚ
  tradeCount : ℕ
  tainted : Bool
deriving DecidableEq, Repr

/-- Whether any lifecycle of the account is tainted. -/
def anyTainted (ls : List CoinLifecycle) : Bool := ls.any isTainted

/-- The per-user metric computation of the leaderboard route. The
`returnPct` branch mirrors the guarded capped division (total here: the
divisor is nonzero whenever the division runs, see the PnL safety
theorem). -/
def leaderboardMetric (metric : Metric) (fills : List Fill) (equity : Option ℚ)
    (hasFromMs : Bool) (maxStartCapital : Option ℚ) : ℚ :=
  match metric with
  | Metric.volume =>
      fills.foldl (fun acc f => acc + decimal.multiply f.px f.sz) 0
  | Metric.pnl => realizedPnlOf fills
  | Metric.returnPct =>
      if hasFromMs then
        let equityAtFromMs := match equity with | some e => e | none => 0
        (returnPctCalc (realizedPnlOf fills) equityAtFromMs maxStartCapital).getD 0
      else 0

/-- The row built for one user, or `none` when the user is skipped
(`continue`): tainted in builder-only mode, or no fills after
filtering. -/
def leaderboardRow (builderOnly : Bool) (metric : Metric) (hasFromMs : Bool)
    (maxStartCapital : Option ℚ) (u : LbUser) : Option LbRow :=
  let isTaintedUser := builderOnly && anyTainted u.lifecycles
  if isTaintedUser then none
  else
    let filteredFills := if builderOnly then filterFills u.lifecycles u.fills else u.fills
    if filteredFills = [] then none
    else some
      { user := u.user
        metricValue := leaderboardMetric metric filteredFills u.equity hasFromMs maxStartCapital
        tradeCount := filteredFills.length
        tainted := isTaintedUser }

/-- Stable descending insertion: the inserted (earlier) row lands before
rows with an equal metric value. -/
def insertRowDesc (x : LbRow) : List LbRow → List LbRow
  | [] => [x]
  | y :: ys => if y.metricValue ≤ x.metricValue then x :: y :: ys else y :: insertRowDesc x ys

/-- `leaderboardData.sort((a, b) => b.metricValue - a.metricValue)` — a
stable sort by metric value descending. -/
def sortRowsDesc (rows : List LbRow) : List LbRow := rows.foldr insertRowDesc []

/-- `rank: index + 1` over the sorted rows. -/
def addRanks : ℕ → List LbRow → List LeaderboardEntry
  | _, [] => []
  | k, r :: rs =>
      { rank := k, user := r.user, metricValue := r.metricValue
        tradeCount := r.tradeCount, tainted := r.tainted } :: addRanks (k + 1) rs

/-- The unsorted rows of the leaderboard, in account grouping order. -/
def leaderboardRows (builderOnly : Bool) (metric : Metric) (hasFromMs : Bool)
    (maxStartCapital : Option ℚ) (users : List LbUser) : List LbRow :=
  users.filterMap (leaderboardRow builderOnly metric hasFromMs maxStartCapital)

/-- The full `/v1/leaderboard` response. -/
def leaderboard (builderOnly : Bool) (metric : Metric) (hasFromMs : Bool)
    (maxStartCapital : Option ℚ) (users : List LbUser) : List LeaderboardEntry :=
  addRanks 1 (sortRowsDesc (leaderboardRows builderOnly metric hasFromMs maxStartCapital users))

/-! ### Concrete fixtures -/

/-- A concrete fill on coin `"ETH"` with zero fee and no closed PnL. -/
def mkFill (t : ℕ) (isBuy : Bool) (px sz : ℚ) (bf : Option ℚ) : Fill :=
  { timeMs := t, coin := "ETH", side := isBuy, px := px, sz := sz, fee := 0
    closedPnl := none, builderFee := bf }

/-- One attributed buy that opens a position and never closes it. -/
def oneOpenBuy : List Fill := [mkFill 1000 true 50000 1 (some 1)]

/-- Three fills sharing timestamp 100, listed in timestamp order (the
list is trivially sorted): sell 1 @ 10, buy 2 @ 20, sell 2 @ 30. -/
def sameTsSorted : List Fill :=
  [mkFill 100 false 10 1 none, mkFill 100 true 20 2 none, mkFill 100 false 30 2 none]

/-- The same three fills, shuffled (reversed). -/
def sameTsShuffled : List Fill :=
  [mkFill 100 false 30 2 none, mkFill 100 true 20 2 none, mkFill 100 false 10 1 none]

/-- A buy and an exactly-offsetting sell sharing timestamp 100. -/
def sameTsRoundTrip : List Fill :=
  [mkFill 100 true 50 1 none, mkFill 100 false 60 1 none]

/-- A fill carrying only a realized-PnL contribution. -/
def pnlOnlyFill (p : ℚ) : Fill :=
  { timeMs := 1, coin := "ETH", side := true, px := 1, sz := 1, fee := 0
    closedPnl := some p, builderFee := none }

/-- Two accounts with identical realized PnL. -/
def lbTwoEqual : List LbUser :=
  [{ user := "a", fills := [pnlOnlyFill 5], lifecycles := [], equity := none },
   { user := "b", fills := [pnlOnlyFill 5], lifecycles := [], equity := none }]

/-- The spec's taint-exclusion scenario: one attributed buy, one
unattributed buy, then an attributed sell closing the whole position. -/
def taintScenarioFills : List Fill :=
  [mkFill 1 true 50000 1 (some 1), mkFill 2 true 50000 1 none,
   mkFill 3 false 50000 2 (some 1)]

/-- Attach the (user, coin) key's coin to a reconstructed lifecycle row,
as it is stored by `positionLifecycle.create`. -/
def withCoin (c : String) (l : Lifecycle) : CoinLifecycle :=
  { coin := c, startMs := l.startMs, endMs := l.endMs
    hasBuilderFills := l.hasBuilderFills, hasNonBuilderFills := l.hasNonBuilderFills }

/-- Spec-side: the timestamp lies in the lifecycle's `[startTime,
endTime]` interval, an absent `endTime` extending to infinity. -/
def lifecycleContains (l : CoinLifecycle) (t : ℕ) : Prop :=
  l.startMs ≤ t ∧ (l.endMs = none ∨ ∃ e, l.endMs = some e ∧ t ≤ e)

/-- The spec's data-model invariant: for each coin, lifecycle intervals
never overlap. -/
def coinwiseDisjoint (ls : List CoinLifecycle) : Prop :=
  ls.Pairwise (fun a b => a.coin = b.coin →
    ∀ t, ¬ (lifecycleContains a t ∧ lifecycleContains b t))

/-! ### Lifecycle interval invariants -/

/-- `t` lies in the stored lifecycle's `[startMs, endMs]` interval (an
absent `endMs` extends to infinity). -/
def lcContains (l : Lifecycle) (t : ℕ) : Prop :=
  l.startMs ≤ t ∧ ∀ e, l.endMs = some e → t ≤ e

/-- Two stored lifecycles occupy disjoint intervals. -/
def lcDisjoint (a b : Lifecycle) : Prop :=
  ∀ t, ¬ (lcContains a t ∧ lcContains b t)

/-- `a` closes strictly before `b` starts. -/
def lcBefore (a b : Lifecycle) : Prop :=
  ∃ e, a.endMs = some e ∧ e < b.startMs

/-- The reconstruction loop invariant: stored lifecycles are strictly
ordered, closed ones have `startMs < endMs`, and the open-lifecycle
bookkeeping matches the store (the open row, when any, is the last). -/
def TrackInv (s : Store) (st : TrackerState) : Prop :=
  s.lifecycles.Pairwise lcBefore ∧
  (∀ l ∈ s.lifecycles, ∀ e, l.endMs = some e → l.startMs < e) ∧
  (match st.currentLifecycleId with
   | none => st.netSize = 0 ∧ ∀ l ∈ s.lifecycles, l.endMs ≠ none
   | some i => st.netSize ≠ 0 ∧
       ∃ cs lo, s.lifecycles = cs ++ [lo] ∧ i = cs.length ∧ lo.endMs = none ∧
         ∀ l ∈ cs, l.endMs ≠ none)

/-- All stored lifecycle times lie strictly before every remaining
fill's timestamp. -/
def lcBound (s : Store) (fills : List Fill) : Prop :=
  ∀ l ∈ s.lifecycles, ∀ f ∈ fills,
    l.startMs < f.timeMs ∧ ∀ e, l.endMs = some e → e < f.timeMs

end Ledger

namespace Ledger

/-! ## Theorems -/

/-- Claim C1: for every fill processed by the reconstruction state
machine (its signed size is nonzero since `sz > 0`), the new average
entry price follows the spec's case analysis: `0` when the new net size
is zero; the fill's price when the old net size was zero; the
size-weighted average `(|oldSize|·avgEntryPrice + |fillSize|·price) /
|newSize|` when the old size and the signed fill size share a sign;
unchanged when the fill partially reduces the position without changing
its sign; and the fill's price when the fill flips the position's sign
through zero. -/
theorem avgEntryPx_follows_spec_cases (oldSize oldAvgPx fillSize fillPx : ℚ)
    (hfs : fillSize ≠ 0) :
    (oldSize + fillSize = 0 →
      calculateAvgEntryPx oldSize oldAvgPx fillSize fillPx = 0) ∧
    (oldSize + fillSize ≠ 0 → oldSize = 0 →
      calculateAvgEntryPx oldSize oldAvgPx fillSize fillPx = fillPx) ∧
    (oldSize ≠ 0 → sameSign oldSize fillSize →
      calculateAvgEntryPx oldSize oldAvgPx fillSize fillPx =
        (|oldSize| * oldAvgPx + |fillSize| * fillPx) / |oldSize + fillSize|) ∧
    (oldSize + fillSize ≠ 0 → oldSize ≠ 0 → ¬ sameSign oldSize fillSize →
      |oldSize + fillSize| < |oldSize| →
      calculateAvgEntryPx oldSize oldAvgPx fillSize fillPx = oldAvgPx) ∧
    (oldSize + fillSize ≠ 0 → oldSize ≠ 0 → ¬ sameSign oldSize fillSize →
      ¬ |oldSize + fillSize| < |oldSize| →
      calculateAvgEntryPx oldSize oldAvgPx fillSize fillPx = fillPx ∧
        ¬ sameSign oldSize (oldSize + fillSize)) := by
  refine ⟨?_, ?_, ?_, ?_, ?_⟩
  · intro h
    unfold calculateAvgEntryPx
    rw [if_pos h]
  · intro hne h0
    unfold calculateAvgEntryPx
    rw [if_neg hne, if_pos h0]
  · intro hold hss
    have hcond : (0 < oldSize ∧ 0 < fillSize) ∨ (oldSize < 0 ∧ fillSize < 0) := by
      rcases hold.lt_or_lt with h | h
      · right
        refine ⟨h, ?_⟩
        rcases hfs.lt_or_lt with h2 | h2
        · exact h2
        · exact absurd (hss.mpr h2) (not_lt.mpr h.le)
      · exact Or.inl ⟨h, hss.mp h⟩
    have hnew : oldSize + fillSize ≠ 0 := by
      rcases hcond with ⟨h1, h2⟩ | ⟨h1, h2⟩
      · exact ne_of_gt (by linarith)
      · exact ne_of_lt (by linarith)
    unfold calculateAvgEntryPx
    rw [if_neg hnew, if_neg hold, if_pos hcond]
  · intro hne hold hnss hlt
    have hcond : ¬ ((0 < oldSize ∧ 0 < fillSize) ∨ (oldSize < 0 ∧ fillSize < 0)) := by
      rintro (⟨h1, h2⟩ | ⟨h1, h2⟩)
      · exact hnss (iff_of_true h1 h2)
      · exact hnss (iff_of_false (not_lt.mpr h1.le) (not_lt.mpr h2.le))
    unfold calculateAvgEntryPx
    rw [if_neg hne, if_neg hold, if_neg hcond, if_pos hlt]
  · intro hne hold hnss hnlt
    have hcond : ¬ ((0 < oldSize ∧ 0 < fillSize) ∨ (oldSize < 0 ∧ fillSize < 0)) := by
      rintro (⟨h1, h2⟩ | ⟨h1, h2⟩)
      · exact hnss (iff_of_true h1 h2)
      · exact hnss (iff_of_false (not_lt.mpr h1.le) (not_lt.mpr h2.le))
    have hflip : (0 < oldSize ∧ oldSize + fillSize < 0) ∨
        (oldSize < 0 ∧ 0 < oldSize + fillSize) := by
      rcases hold.lt_or_lt with h | h
      · have hf : 0 < fillSize := by
          by_contra hf'
          exact hnss (iff_of_false (not_lt.mpr h.le) hf')
        right
        refine ⟨h, ?_⟩
        by_contra hnp
        have hn : oldSize + fillSize < 0 := lt_of_le_of_ne (not_lt.mp hnp) hne
        apply hnlt
        rw [abs_of_neg hn, abs_of_neg h]
        linarith
      · have hf : fillSize < 0 := by
          rcases hfs.lt_or_lt with h2 | h2
          · exact h2
          · exact absurd (iff_of_true h h2) hnss
        left
        refine ⟨h, ?_⟩
        by_contra hnp
        have hn : 0 < oldSize + fillSize :=
          lt_of_le_of_ne (not_lt.mp hnp) (Ne.symm hne)
        apply hnlt
        rw [abs_of_pos hn, abs_of_pos h]
        linarith
    constructor
    · unfold calculateAvgEntryPx
      rw [if_neg hne, if_neg hold, if_neg hcond, if_neg hnlt, if_pos hflip]
    · rcases hflip with ⟨h1, h2⟩ | ⟨h1, h2⟩
      · exact fun hs => absurd (hs.mp h1) (not_lt.mpr h2.le)
      · exact fun hs => absurd (hs.mpr h2) (not_lt.mpr h1.le)

/-- Witness for C1: the spec's flip scenario — long `1 @ 50000`, then a
sell of 2 at `52000` flips the position, and the entry price becomes the
fill's price. -/
theorem avgEntryPx_follows_spec_cases_witness :
    calculateAvgEntryPx 1 50000 (-2) 52000 = 52000 ∧ ¬ sameSign 1 (1 + -2) :=
  (avgEntryPx_follows_spec_cases 1 50000 (-2) 52000 (by norm_num)).2.2.2.2
    (by norm_num) (by norm_num) (by norm_num [sameSign])
    (by rw [show (1 : ℚ) + -2 = -1 by norm_num]; norm_num)

lemma recon_oneOpenBuy :
    reconstructPositionHistory oneOpenBuy =
      { positions := [{ timeMs := 1000, netSize := 1, avgEntryPx := 50000 }]
        lifecycles := [{ startMs := 1000, endMs := none
                         hasBuilderFills := true, hasNonBuilderFills := false }] } := by
  unfold reconstructPositionHistory reconstructInto
  rw [if_neg (by simp [oneOpenBuy])]
  norm_num [oneOpenBuy, mkFill, sortByTime, insertByTime, processFill, calculateAvgEntryPx,
    upsertPosition, modifyLifecycleAt, initialTrackerState, isBuilderFill, flushOpen]

lemma recon_oneOpenBuy_twice :
    reconstructInto (reconstructPositionHistory oneOpenBuy) oneOpenBuy =
      { positions := [{ timeMs := 1000, netSize := 1, avgEntryPx := 50000 }]
        lifecycles := [{ startMs := 1000, endMs := none
                         hasBuilderFills := true, hasNonBuilderFills := false },
                       { startMs := 1000, endMs := none
                         hasBuilderFills := true, hasNonBuilderFills := false }] } := by
  rw [recon_oneOpenBuy]
  unfold reconstructInto
  rw [if_neg (by simp [oneOpenBuy])]
  norm_num [oneOpenBuy, mkFill, sortByTime, insertByTime, processFill, calculateAvgEntryPx,
    upsertPosition, modifyLifecycleAt, initialTrackerState, isBuilderFill, flushOpen]

/-- Claim C3 (code bug evaluated at the failing input): reprocessing the
single-fill sequence `[attributed buy 1 @ 50000 at t = 1000]` leaves the
position snapshots unchanged, but the second pass appends a second
`PositionLifecycle` row with the same `(startMs, flags)` instead of
upserting on the natural key `(account, instrument, startTime)`, so the
lifecycle set is duplicated rather than identical. -/
theorem reprocessing_duplicates_lifecycles :
    (reconstructPositionHistory oneOpenBuy).lifecycles.length = 1 ∧
    (reconstructInto (reconstructPositionHistory oneOpenBuy) oneOpenBuy).lifecycles.length
        = 2 ∧
    (reconstructInto (reconstructPositionHistory oneOpenBuy) oneOpenBuy).positions =
      (reconstructPositionHistory oneOpenBuy).positions ∧
    (reconstructInto (reconstructPositionHistory oneOpenBuy) oneOpenBuy).lifecycles ≠
      (reconstructPositionHistory oneOpenBuy).lifecycles := by
  rw [recon_oneOpenBuy_twice, recon_oneOpenBuy]
  refine ⟨rfl, rfl, rfl, by simp⟩

lemma recon_sameTsSorted :
    reconstructPositionHistory sameTsSorted =
      { positions := [{ timeMs := 100, netSize := -1, avgEntryPx := 30 }]
        lifecycles := [{ startMs := 100, endMs := none
                         hasBuilderFills := false, hasNonBuilderFills := true }] } := by
  unfold reconstructPositionHistory reconstructInto
  rw [if_neg (by simp [sameTsSorted])]
  norm_num [sameTsSorted, mkFill, sortByTime, insertByTime, processFill, calculateAvgEntryPx,
    upsertPosition, modifyLifecycleAt, initialTrackerState, isBuilderFill, flushOpen]

lemma recon_sameTsShuffled :
    reconstructPositionHistory sameTsShuffled =
      { positions := [{ timeMs := 100, netSize := -1, avgEntryPx := 10 }]
        lifecycles := [{ startMs := 100, endMs := some 100
                         hasBuilderFills := false, hasNonBuilderFills := true },
                       { startMs := 100, endMs := none
                         hasBuilderFills := false, hasNonBuilderFills := true }] } := by
  unfold reconstructPositionHistory reconstructInto
  rw [if_neg (by simp [sameTsShuffled])]
  norm_num [sameTsShuffled, mkFill, sortByTime, insertByTime, processFill, calculateAvgEntryPx,
    upsertPosition, modifyLifecycleAt, initialTrackerState, isBuilderFill, flushOpen]

/-- Counterexample for C9: the shuffled input `sameTsShuffled` is a
permutation of the (already timestamp-sorted) `sameTsSorted`, yet
reconstruction yields different snapshots and different lifecycle sets:
with tied timestamps the stable sort's secondary order is the input
order, which the shuffle changes. -/
theorem shuffle_changes_reconstruction :
    List.Perm sameTsShuffled sameTsSorted ∧
    sortByTime sameTsSorted = sameTsSorted ∧
    reconstructPositionHistory sameTsShuffled ≠
      reconstructPositionHistory sameTsSorted := by
  refine ⟨?_, ?_, ?_⟩
  · have h : sameTsSorted.reverse = sameTsShuffled := by
      simp [sameTsSorted, sameTsShuffled]
    exact h ▸ (List.reverse_perm sameTsSorted)
  · simp [sameTsSorted, sortByTime, insertByTime, mkFill]
  · rw [recon_sameTsSorted, recon_sameTsShuffled]
    intro h
    simpa using congrArg (fun s => s.lifecycles.length) h

lemma recon_sameTsRoundTrip :
    reconstructPositionHistory sameTsRoundTrip =
      { positions := [{ timeMs := 100, netSize := 0, avgEntryPx := 0 }]
        lifecycles := [{ startMs := 100, endMs := some 100
                         hasBuilderFills := false, hasNonBuilderFills := true }] } := by
  unfold reconstructPositionHistory reconstructInto
  rw [if_neg (by simp [sameTsRoundTrip])]
  norm_num [sameTsRoundTrip, mkFill, sortByTime, insertByTime, processFill,
    calculateAvgEntryPx, upsertPosition, modifyLifecycleAt, initialTrackerState,
    isBuilderFill, flushOpen]

/-- Counterexample for C4: a buy and an exactly-offsetting sell sharing
one timestamp produce a closed lifecycle with `startMs = endMs = 100`,
violating the `startTime < endTime` invariant. -/
theorem same_timestamp_breaks_lifecycle_invariant :
    (reconstructPositionHistory sameTsRoundTrip).lifecycles =
      [{ startMs := 100, endMs := some 100
         hasBuilderFills := false, hasNonBuilderFills := true }] ∧
    ¬ (∀ l ∈ (reconstructPositionHistory sameTsRoundTrip).lifecycles,
        ∀ e, l.endMs = some e → l.startMs < e) := by
  rw [recon_sameTsRoundTrip]
  refine ⟨rfl, ?_⟩
  intro h
  simpa using h { startMs := 100, endMs := some 100
                  hasBuilderFills := false, hasNonBuilderFills := true }
    (by simp) 100 rfl

lemma isBuilderFill_eq_true (f : Fill) :
    isBuilderFill f = true ↔ ∃ b, f.builderFee = some b ∧ 0 < b := by
  cases h : f.builderFee <;> simp [isBuilderFill, h]

lemma inTaintRange_eq_true (t : ℕ) (r : TaintRange) :
    inTaintRange t r = true ↔
      r.startMs ≤ t ∧ (r.endMs = none ∨ ∃ e, r.endMs = some e ∧ t ≤ e) := by
  cases h : r.endMs <;> simp [inTaintRange, h]

lemma no_taintRange_hit (ls : List CoinLifecycle) (coin : String) (t : ℕ) :
    ((taintedRangesFor ls coin).any (inTaintRange t) = false) ↔
      ¬ ∃ l ∈ ls, isTainted l = true ∧ l.coin = coin ∧ l.startMs ≤ t ∧
          (l.endMs = none ∨ ∃ e, l.endMs = some e ∧ t ≤ e) := by
  rw [Bool.eq_false_iff, Ne, List.any_eq_true]
  apply not_congr
  simp only [taintedRangesFor, List.mem_map, List.mem_filter, Bool.and_eq_true,
    beq_iff_eq, inTaintRange_eq_true]
  constructor
  · rintro ⟨r, ⟨l, ⟨hl, ht, hc⟩, rfl⟩, h1, h2⟩
    exact ⟨l, hl, ht, hc, h1, h2⟩
  · rintro ⟨l, hl, ht, hc, h1, h2⟩
    exact ⟨{ startMs := l.startMs, endMs := l.endMs }, ⟨l, ⟨hl, ht, hc⟩, rfl⟩, h1, h2⟩

lemma recon_taintScenario :
    reconstructPositionHistory taintScenarioFills =
      { positions := [{ timeMs := 1, netSize := 1, avgEntryPx := 50000 },
                      { timeMs := 2, netSize := 2, avgEntryPx := 50000 },
                      { timeMs := 3, netSize := 0, avgEntryPx := 0 }]
        lifecycles := [{ startMs := 1, endMs := some 3
                         hasBuilderFills := true, hasNonBuilderFills := true }] } := by
  unfold reconstructPositionHistory reconstructInto
  rw [if_neg (by simp [taintScenarioFills])]
  norm_num [taintScenarioFills, mkFill, sortByTime, insertByTime, processFill,
    calculateAvgEntryPx, upsertPosition, modifyLifecycleAt, initialTrackerState,
    isBuilderFill, flushOpen]

/-- Claim C2: in builder-only mode the trade-listing and PnL read paths
include a fill iff it carries a positive builder fee and its timestamp
lies in no tainted-lifecycle exclusion interval for its coin (an
interval with `endMs = none` extends to infinity); and, end to end, the
tainted lifecycle made of one attributed buy, one unattributed buy and
one attributed closing sell has all three fills excluded. -/
theorem builderOnly_fill_filter (ls : List CoinLifecycle) (fills : List Fill) (f : Fill) :
    (f ∈ filterFills ls fills ↔
      f ∈ fills ∧ (∃ b, f.builderFee = some b ∧ 0 < b) ∧
        ¬ ∃ l ∈ ls, isTainted l = true ∧ l.coin = f.coin ∧ l.startMs ≤ f.timeMs ∧
            (l.endMs = none ∨ ∃ e, l.endMs = some e ∧ f.timeMs ≤ e)) ∧
    filterFills
        ((reconstructPositionHistory taintScenarioFills).lifecycles.map (withCoin "ETH"))
        taintScenarioFills = [] := by
  constructor
  · rw [filterFills, List.mem_filter, includeFill, Bool.and_eq_true,
      Bool.not_eq_true', isBuilderFill_eq_true, no_taintRange_hit]
  · rw [recon_taintScenario]
    norm_num [taintScenarioFills, mkFill, filterFills, includeFill, isBuilderFill,
      taintedRangesFor, isTainted, inTaintRange, withCoin, List.filter]

lemma positionVisibleAux_iff (t : ℕ) (rs : List (TaintRange × Bool))
    (hd : rs.Pairwise (fun a b =>
      ¬ (inTaintRange t a.1 = true ∧ inTaintRange t b.1 = true))) :
    positionVisibleAux t rs = true ↔
      ∃ q ∈ rs, inTaintRange t q.1 = true ∧ q.2 = false := by
  induction rs with
  | nil => simp [positionVisibleAux]
  | cons x rest ih =>
    obtain ⟨r, b⟩ := x
    rw [List.pairwise_cons] at hd
    by_cases h : inTaintRange t r = true
    · simp only [positionVisibleAux, if_pos h]
      constructor
      · intro hb
        exact ⟨(r, b), List.mem_cons_self _ _, h, by simpa using hb⟩
      · rintro ⟨q, hq, hin, hb⟩
        rcases List.mem_cons.mp hq with rfl | hq'
        · simpa using hb
        · exact absurd ⟨h, hin⟩ (hd.1 q hq')
    · simp only [positionVisibleAux, if_neg h]
      rw [ih hd.2]
      constructor
      · rintro ⟨q, hq, hin, hb⟩
        exact ⟨q, List.mem_cons_of_mem _ hq, hin, hb⟩
      · rintro ⟨q, hq, hin, hb⟩
        rcases List.mem_cons.mp hq with rfl | hq'
        · exact absurd hin h
        · exact ⟨q, hq', hin, hb⟩

lemma inTaintRange_of_lifecycle (l : CoinLifecycle) (t : ℕ) :
    inTaintRange t { startMs := l.startMs, endMs := l.endMs } = true ↔
      lifecycleContains l t := by
  rw [inTaintRange_eq_true]
  exact Iff.rfl

/-- Claim C7: in builder-only mode, given the documented invariant that
a coin's lifecycle intervals never overlap, a position snapshot is
visible iff its timestamp falls within some non-tainted lifecycle
interval of its coin; snapshots outside all lifecycle intervals are
excluded. -/
theorem builderOnly_position_filter (ls : List CoinLifecycle) (ps : List PositionRow)
    (p : PositionRow) (hd : coinwiseDisjoint ls) :
    p ∈ filterPositions ls ps ↔
      p ∈ ps ∧ ∃ l ∈ ls, l.coin = p.coin ∧ isTainted l = false ∧
          lifecycleContains l p.timeMs := by
  have hfiltmem : ∀ l ∈ ls.filter (fun l => l.coin == p.coin), l.coin = p.coin := by
    intro l hl
    simpa using (List.mem_filter.mp hl).2
  have hpw : (positionRangesFor ls p.coin).Pairwise (fun a b =>
      ¬ (inTaintRange p.timeMs a.1 = true ∧ inTaintRange p.timeMs b.1 = true)) := by
    unfold positionRangesFor
    have h1 : (ls.filter (fun l => l.coin == p.coin)).Pairwise (fun a b => a.coin = b.coin →
        ∀ t, ¬ (lifecycleContains a t ∧ lifecycleContains b t)) :=
      hd.sublist (List.filter_sublist _)
    have h2 : (ls.filter (fun l => l.coin == p.coin)).Pairwise (fun a b =>
        ∀ t, ¬ (lifecycleContains a t ∧ lifecycleContains b t)) := by
      refine h1.imp_of_mem ?_
      intro a b ha hb hab
      exact hab ((hfiltmem a ha).trans (hfiltmem b hb).symm)
    refine h2.map _ ?_
    intro a b hab
    rw [inTaintRange_of_lifecycle, inTaintRange_of_lifecycle]
    exact hab p.timeMs
  rw [filterPositions, List.mem_filter, positionVisible,
    positionVisibleAux_iff _ _ hpw]
  apply and_congr_right
  intro _
  simp only [positionRangesFor, List.mem_map, List.mem_filter, beq_iff_eq]
  constructor
  · rintro ⟨q, ⟨l, ⟨hl, hc⟩, rfl⟩, hin, hb⟩
    exact ⟨l, hl, hc, hb, (inTaintRange_of_lifecycle l p.timeMs).mp hin⟩
  · rintro ⟨l, hl, hc, hb, hcont⟩
    exact ⟨({ startMs := l.startMs, endMs := l.endMs }, isTainted l), ⟨l, ⟨hl, hc⟩, rfl⟩,
      (inTaintRange_of_lifecycle l p.timeMs).mpr hcont, hb⟩

/-- Witness for C7: one non-tainted lifecycle `[10, 20]` on `"ETH"` and
one snapshot at `t = 15`, which the filter keeps. -/
theorem builderOnly_position_filter_witness :
    ({ coin := "ETH", timeMs := 15, netSize := 1, avgEntryPx := 50 } : PositionRow) ∈
      filterPositions
        [{ coin := "ETH", startMs := 10, endMs := some 20
           hasBuilderFills := true, hasNonBuilderFills := false }]
        [{ coin := "ETH", timeMs := 15, netSize := 1, avgEntryPx := 50 }] :=
  (builderOnly_position_filter _ _ _ (by simp [coinwiseDisjoint])).mpr
    ⟨by simp,
     { coin := "ETH", startMs := 10, endMs := some 20
       hasBuilderFills := true, hasNonBuilderFills := false },
     by simp, rfl, by simp [isTainted], by simp [lifecycleContains]⟩

lemma min_ne_zero_of_pos_of_ne (equity c : ℚ) (he : 0 < equity) (hc : c ≠ 0) :
    min equity c ≠ 0 := by
  rcases hc.lt_or_lt with h | h
  · exact ne_of_lt (lt_of_le_of_lt (min_le_right _ _) h)
  · exact ne_of_gt (lt_min he h)

/-- Claim C6: the PnL summary computes `returnPct = 100 · realizedPnl /
effectiveCapital` with `effectiveCapital = min(equityAtRangeStart, cap)`
when a (nonzero) cap is supplied and `equityAtRangeStart` otherwise;
whenever `equityAtRangeStart ≤ 0` the endpoint returns `returnPct = 0`
with no error; and equity `1,000,000` with cap `10,000` and realized PnL
`5,000` yields `returnPct = 50`. -/
theorem pnl_returnPct_formula (realizedPnl equity : ℚ) (cap : Option ℚ) :
    (equity ≤ 0 → pnlEndpointReturnPct true equity realizedPnl cap = some 0) ∧
    (0 < equity → cap = none →
      pnlEndpointReturnPct true equity realizedPnl cap =
        some (100 * realizedPnl / equity)) ∧
    (0 < equity → ∀ c, cap = some c → c ≠ 0 →
      pnlEndpointReturnPct true equity realizedPnl cap =
        some (100 * realizedPnl / min equity c)) ∧
    pnlEndpointReturnPct true 1000000 5000 (some 10000) = some 50 := by
  refine ⟨?_, ?_, ?_, ?_⟩
  · intro h
    simp [pnlEndpointReturnPct, returnPctCalc, not_lt.mpr h]
  · rintro he rfl
    simp only [pnlEndpointReturnPct, if_pos trivial, returnPctCalc, if_pos he,
      decimal.divide, decimal.multiply, if_neg (ne_of_gt he), Option.map_some']
    exact congrArg some (by ring)
  · rintro he c rfl hc
    have hmin := min_ne_zero_of_pos_of_ne equity c he hc
    simp only [pnlEndpointReturnPct, if_pos trivial, returnPctCalc, if_pos he,
      decimal.divide, decimal.multiply, if_neg hc, if_neg hmin, Option.map_some']
    exact congrArg some (by ring)
  · have h1 : ((10000 : ℚ)) ≠ 0 := by norm_num
    have h2 : (min (1000000 : ℚ) 10000) = 10000 := by
      rw [min_def]
      norm_num
    simp only [pnlEndpointReturnPct, if_pos trivial, returnPctCalc,
      if_pos (by norm_num : (0 : ℚ) < 1000000), decimal.divide, decimal.multiply,
      if_neg h1, h2, Option.map_some']
    norm_num

/-- Witness for C6: the capped branch applied at equity `1,000,000`,
cap `10,000`, realized PnL `5,000`. -/
theorem pnl_returnPct_formula_witness :
    pnlEndpointReturnPct true 1000000 5000 (some 10000) =
      some (100 * 5000 / min 1000000 10000) :=
  (pnl_returnPct_formula 5000 1000000 (some 10000)).2.2.1 (by norm_num) 10000 rfl
    (by norm_num)

/-- Claim C10: on the `/v1/pnl` return-percentage path the division is
never invoked with a zero divisor — the `equityAtFromMs > 0` guard plus
the falsiness of a `maxStartCapital` of `0` (which leaves
`effectiveCapital` equal to the positive equity) make the `Division by
zero` branch unreachable, so the computation always yields a value. -/
theorem pnl_divide_never_zero (hasFromMs : Bool) (equity realizedPnl : ℚ)
    (cap : Option ℚ) :
    (pnlEndpointReturnPct hasFromMs equity realizedPnl cap).isSome = true ∧
    pnlEndpointReturnPct hasFromMs equity realizedPnl (some 0) =
      pnlEndpointReturnPct hasFromMs equity realizedPnl none := by
  constructor
  · cases hasFromMs
    · simp [pnlEndpointReturnPct]
    · simp only [pnlEndpointReturnPct, if_pos trivial]
      unfold returnPctCalc
      by_cases he : 0 < equity
      · rw [if_pos he]
        cases cap with
        | none => simp [decimal.divide, ne_of_gt he]
        | some c =>
            by_cases hc : c = 0
            · simp [hc, decimal.divide, ne_of_gt he]
            · simp [hc, decimal.divide, min_ne_zero_of_pos_of_ne equity c he hc]
      · rw [if_neg he]
        simp
  · cases hasFromMs
    · simp [pnlEndpointReturnPct]
    · simp [pnlEndpointReturnPct, returnPctCalc]

lemma user_mem_addRanks :
    ∀ (k : ℕ) (rs : List LbRow) (e : LeaderboardEntry),
      e ∈ addRanks k rs → ∃ r ∈ rs, e.user = r.user := by
  intro k rs
  induction rs generalizing k with
  | nil => intro e he; cases he
  | cons r rest ih =>
      intro e he
      rcases List.mem_cons.mp he with rfl | he'
      · exact ⟨r, List.mem_cons_self _ _, rfl⟩
      · obtain ⟨r', hr', heq⟩ := ih (k + 1) e he'
        exact ⟨r', List.mem_cons_of_mem _ hr', heq⟩

lemma insertRowDesc_perm (x : LbRow) (l : List LbRow) :
    List.Perm (insertRowDesc x l) (x :: l) := by
  induction l with
  | nil => exact List.Perm.refl _
  | cons y ys ih =>
      by_cases h : y.metricValue ≤ x.metricValue
      · rw [insertRowDesc, if_pos h]
      · rw [insertRowDesc, if_neg h]
        exact (ih.cons y).trans (List.Perm.swap x y ys)

lemma sortRowsDesc_perm (l : List LbRow) : List.Perm (sortRowsDesc l) l := by
  induction l with
  | nil => exact List.Perm.refl _
  | cons x xs ih =>
      exact (insertRowDesc_perm x (sortRowsDesc xs)).trans (ih.cons x)

lemma leaderboardRow_builderOnly_some (metric : Metric) (hasFromMs : Bool)
    (cap : Option ℚ) (u : LbUser) (r : LbRow)
    (h : leaderboardRow true metric hasFromMs cap u = some r) :
    anyTainted u.lifecycles = false ∧ r.user = u.user := by
  unfold leaderboardRow at h
  rw [Bool.true_and] at h
  by_cases ht : anyTainted u.lifecycles = true
  · rw [if_pos ht] at h
    cases h
  · have ht' : anyTainted u.lifecycles = false := Bool.not_eq_true _ |>.mp ht
    rw [if_neg ht] at h
    simp only [eq_self_iff_true, if_true] at h
    by_cases hfe : filterFills u.lifecycles u.fills = []
    · rw [if_pos hfe] at h
      cases h
    · refine ⟨ht', ?_⟩
      rw [if_neg hfe] at h
      cases h
      rfl

/-- Claim C5: in an attributed-only leaderboard, an account with any
tainted lifecycle is entirely absent from the result, regardless of its
remaining fills. -/
theorem leaderboard_excludes_tainted_accounts (metric : Metric) (hasFromMs : Bool)
    (cap : Option ℚ) (users : List LbUser) (u : LbUser)
    (hu : u ∈ users) (ht : anyTainted u.lifecycles = true)
    (hnd : (users.map LbUser.user).Nodup) :
    u.user ∉ (leaderboard true metric hasFromMs cap users).map LeaderboardEntry.user := by
  intro hmem
  obtain ⟨e, he, heq⟩ := List.mem_map.mp hmem
  obtain ⟨r, hr, hre⟩ := user_mem_addRanks 1 _ e he
  have hr' : r ∈ leaderboardRows true metric hasFromMs cap users :=
    (sortRowsDesc_perm _).mem_iff.mp hr
  obtain ⟨u', hu', hrow⟩ := List.mem_filterMap.mp hr'
  obtain ⟨ht', huser⟩ := leaderboardRow_builderOnly_some metric hasFromMs cap u' r hrow
  have husers : u'.user = u.user := by
    rw [← huser, ← hre, heq]
  have hpw : users.Pairwise (fun a b => a.user ≠ b.user) :=
    (List.pairwise_map.mp hnd)
  have : u' = u := by
    by_contra hne
    exact (hpw.forall (fun a b h => h.symm) hu' hu hne) husers
  rw [this] at ht'
  rw [ht] at ht'
  cases ht'

/-- Witness for C5: a single account `"a"` whose only lifecycle is
tainted never appears in the attributed-only leaderboard. -/
theorem leaderboard_excludes_tainted_accounts_witness :
    "a" ∉ (leaderboard true Metric.pnl false none
      [{ user := "a", fills := [mkFill 1 true 1 1 (some 1)]
         lifecycles := [{ coin := "ETH", startMs := 0, endMs := none
                          hasBuilderFills := true, hasNonBuilderFills := true }]
         equity := none }]).map LeaderboardEntry.user :=
  leaderboard_excludes_tainted_accounts Metric.pnl false none _ _
    (List.mem_singleton.mpr rfl) rfl (by simp)

lemma insertRowDesc_sorted (x : LbRow) (l : List LbRow)
    (h : l.Pairwise (fun a b => b.metricValue ≤ a.metricValue)) :
    (insertRowDesc x l).Pairwise (fun a b => b.metricValue ≤ a.metricValue) := by
  induction l with
  | nil => simp [insertRowDesc]
  | cons y ys ih =>
      rw [List.pairwise_cons] at h
      by_cases hc : y.metricValue ≤ x.metricValue
      · rw [insertRowDesc, if_pos hc, List.pairwise_cons]
        refine ⟨?_, List.pairwise_cons.mpr h⟩
        intro z hz
        rcases List.mem_cons.mp hz with rfl | hz'
        · exact hc
        · exact (h.1 z hz').trans hc
      · rw [insertRowDesc, if_neg hc, List.pairwise_cons]
        refine ⟨?_, ih h.2⟩
        intro z hz
        rcases List.mem_cons.mp ((insertRowDesc_perm x ys).mem_iff.mp hz) with rfl | hz'
        · exact le_of_lt (not_le.mp hc)
        · exact h.1 z hz'

lemma sortRowsDesc_sorted (l : List LbRow) :
    (sortRowsDesc l).Pairwise (fun a b => b.metricValue ≤ a.metricValue) := by
  induction l with
  | nil => simp [sortRowsDesc]
  | cons x xs ih => exact insertRowDesc_sorted x (sortRowsDesc xs) ih

lemma insertRowDesc_filter_eq (x : LbRow) (l : List LbRow) (v : ℚ)
    (hx : x.metricValue = v) :
    (insertRowDesc x l).filter (fun r => r.metricValue == v) =
      x :: l.filter (fun r => r.metricValue == v) := by
  induction l with
  | nil => simp [insertRowDesc, List.filter_cons, hx]
  | cons y ys ih =>
      by_cases hc : y.metricValue ≤ x.metricValue
      · rw [insertRowDesc, if_pos hc, List.filter_cons, if_pos (by simp [hx])]
      · have hy : ¬ ((y.metricValue == v) = true) := by
          simp only [beq_iff_eq]
          intro hyv
          exact hc (le_of_eq (hyv.trans hx.symm))
        rw [insertRowDesc, if_neg hc, List.filter_cons, if_neg hy, ih,
          List.filter_cons, if_neg hy]

lemma insertRowDesc_filter_ne (x : LbRow) (l : List LbRow) (v : ℚ)
    (hx : x.metricValue ≠ v) :
    (insertRowDesc x l).filter (fun r => r.metricValue == v) =
      l.filter (fun r => r.metricValue == v) := by
  induction l with
  | nil => simp [insertRowDesc, List.filter_cons, hx]
  | cons y ys ih =>
      by_cases hc : y.metricValue ≤ x.metricValue
      · rw [insertRowDesc, if_pos hc, List.filter_cons, if_neg (by simp [hx])]
      · rw [insertRowDesc, if_neg hc]
        rw [List.filter_cons, List.filter_cons, ih]

lemma sortRowsDesc_filter_eq (l : List LbRow) (v : ℚ) :
    (sortRowsDesc l).filter (fun r => r.metricValue == v) =
      l.filter (fun r => r.metricValue == v) := by
  induction l with
  | nil => rfl
  | cons x xs ih =>
      show (insertRowDesc x (sortRowsDesc xs)).filter _ = _
      by_cases hx : x.metricValue = v
      · rw [insertRowDesc_filter_eq x _ v hx, ih, List.filter_cons,
          if_pos (by simp [hx])]
      · rw [insertRowDesc_filter_ne x _ v hx, ih, List.filter_cons,
          if_neg (by simp [hx])]

lemma addRanks_rank :
    ∀ (k : ℕ) (rs : List LbRow) (i : ℕ) (e : LeaderboardEntry),
      (addRanks k rs).get? i = some e → e.rank = k + i := by
  intro k rs
  induction rs generalizing k with
  | nil =>
      intro i e h
      rw [addRanks] at h
      cases h
  | cons r rest ih =>
      intro i e h
      cases i with
      | zero =>
          rw [addRanks] at h
          cases h
          rfl
      | succ n =>
          rw [addRanks] at h
          have := ih (k + 1) n e h
          omega

lemma leaderboard_lbTwoEqual_eval :
    leaderboard false Metric.pnl false none lbTwoEqual =
      [{ rank := 1, user := "a", metricValue := 5, tradeCount := 1, tainted := false },
       { rank := 2, user := "b", metricValue := 5, tradeCount := 1, tainted := false }] := by
  norm_num [leaderboard, leaderboardRows, leaderboardRow, leaderboardMetric,
    realizedPnlOf, decimal.add, sortRowsDesc, insertRowDesc, addRanks, lbTwoEqual,
    pnlOnlyFill, anyTainted, List.filterMap]

/-- Counterexample for C8: two accounts with identical realized PnL `5`
receive ranks `1` and `2` — `rank = index + 1` is an ordinal rank, not a
dense rank, so entries with equal metric value do not share a rank. -/
theorem equal_metric_values_get_distinct_ranks :
    leaderboard false Metric.pnl false none lbTwoEqual =
      [{ rank := 1, user := "a", metricValue := 5, tradeCount := 1, tainted := false },
       { rank := 2, user := "b", metricValue := 5, tradeCount := 1, tainted := false }] ∧
    ¬ (∀ e1 ∈ leaderboard false Metric.pnl false none lbTwoEqual,
        ∀ e2 ∈ leaderboard false Metric.pnl false none lbTwoEqual,
          e1.metricValue = e2.metricValue → e1.rank = e2.rank) := by
  refine ⟨leaderboard_lbTwoEqual_eval, ?_⟩
  intro hdense
  have h12 := hdense
    { rank := 1, user := "a", metricValue := 5, tradeCount := 1, tainted := false }
    (by rw [leaderboard_lbTwoEqual_eval]; simp)
    { rank := 2, user := "b", metricValue := 5, tradeCount := 1, tainted := false }
    (by rw [leaderboard_lbTwoEqual_eval]; simp)
    rfl
  simp at h12

/-- Amended C8: entries are sorted descending by metric value with a
stable sort (ties keep the account grouping order, so the result is
deterministic), and each entry receives the 1-based ordinal rank
`index + 1` — equal metric values receive distinct consecutive ranks. -/
theorem leaderboard_ordinal_ranking (builderOnly : Bool) (metric : Metric)
    (hasFromMs : Bool) (cap : Option ℚ) (users : List LbUser) :
    leaderboard builderOnly metric hasFromMs cap users =
      addRanks 1 (sortRowsDesc (leaderboardRows builderOnly metric hasFromMs cap users)) ∧
    List.Perm (sortRowsDesc (leaderboardRows builderOnly metric hasFromMs cap users))
      (leaderboardRows builderOnly metric hasFromMs cap users) ∧
    (sortRowsDesc (leaderboardRows builderOnly metric hasFromMs cap users)).Pairwise
      (fun a b => b.metricValue ≤ a.metricValue) ∧
    (∀ v : ℚ,
      (sortRowsDesc (leaderboardRows builderOnly metric hasFromMs cap users)).filter
          (fun r => r.metricValue == v) =
        (leaderboardRows builderOnly metric hasFromMs cap users).filter
          (fun r => r.metricValue == v)) ∧
    (∀ (i : ℕ) (e : LeaderboardEntry),
      (leaderboard builderOnly metric hasFromMs cap users).get? i = some e →
        e.rank = i + 1) := by
  refine ⟨rfl, sortRowsDesc_perm _, sortRowsDesc_sorted _,
    fun v => sortRowsDesc_filter_eq _ v, ?_⟩
  intro i e h
  have := addRanks_rank 1 _ i e h
  omega

/-- Witness for the amended C8: in the two-account leaderboard the entry
at index 1 carries rank 2. -/
theorem leaderboard_ordinal_ranking_witness :
    ({ rank := 2, user := "b", metricValue := 5, tradeCount := 1, tainted := false } :
      LeaderboardEntry).rank = 1 + 1 :=
  (leaderboard_ordinal_ranking false Metric.pnl false none lbTwoEqual).2.2.2.2 1 _
    (by rw [leaderboard_lbTwoEqual_eval]; rfl)

lemma insertByTime_perm (f : Fill) (l : List Fill) :
    List.Perm (insertByTime f l) (f :: l) := by
  induction l with
  | nil => exact List.Perm.refl _
  | cons g gs ih =>
      by_cases h : f.timeMs ≤ g.timeMs
      · rw [insertByTime, if_pos h]
      · rw [insertByTime, if_neg h]
        exact (ih.cons g).trans (List.Perm.swap f g gs)

lemma sortByTime_perm (l : List Fill) : List.Perm (sortByTime l) l := by
  induction l with
  | nil => exact List.Perm.refl _
  | cons x xs ih =>
      exact (insertByTime_perm x (sortByTime xs)).trans (ih.cons x)

lemma insertByTime_sorted (f : Fill) (l : List Fill)
    (h : l.Pairwise (fun a b => a.timeMs ≤ b.timeMs)) :
    (insertByTime f l).Pairwise (fun a b => a.timeMs ≤ b.timeMs) := by
  induction l with
  | nil => simp [insertByTime]
  | cons g gs ih =>
      rw [List.pairwise_cons] at h
      by_cases hc : f.timeMs ≤ g.timeMs
      · rw [insertByTime, if_pos hc, List.pairwise_cons]
        refine ⟨?_, List.pairwise_cons.mpr h⟩
        intro z hz
        rcases List.mem_cons.mp hz with rfl | hz'
        · exact hc
        · exact hc.trans (h.1 z hz')
      · rw [insertByTime, if_neg hc, List.pairwise_cons]
        refine ⟨?_, ih h.2⟩
        intro z hz
        rcases List.mem_cons.mp ((insertByTime_perm f gs).mem_iff.mp hz) with rfl | hz'
        · exact le_of_lt (not_le.mp hc)
        · exact h.1 z hz'

lemma sortByTime_sorted (l : List Fill) :
    (sortByTime l).Pairwise (fun a b => a.timeMs ≤ b.timeMs) := by
  induction l with
  | nil => simp [sortByTime]
  | cons x xs ih => exact insertByTime_sorted x (sortByTime xs) ih

lemma pairwise_lt_of_le_nodup (l : List Fill)
    (h1 : l.Pairwise (fun a b => a.timeMs ≤ b.timeMs))
    (h2 : (l.map Fill.timeMs).Nodup) :
    l.Pairwise (fun a b => a.timeMs < b.timeMs) := by
  rw [List.Nodup, List.pairwise_map] at h2
  exact (h1.and h2).imp (fun h => lt_of_le_of_ne h.1 h.2)

lemma eq_of_perm_of_timeMs_strict :
    ∀ (l1 l2 : List Fill), List.Perm l1 l2 →
      l1.Pairwise (fun a b => a.timeMs < b.timeMs) →
      l2.Pairwise (fun a b => a.timeMs < b.timeMs) → l1 = l2 := by
  intro l1
  induction l1 with
  | nil =>
      intro l2 hp _ _
      exact hp.nil_eq
  | cons a t1 ih =>
      intro l2 hp h1 h2
      cases l2 with
      | nil =>
          have := hp.length_eq
          simp at this
      | cons b t2 =>
          have hab : a = b := by
            by_contra hne
            have hamem : a ∈ b :: t2 := hp.subset (List.mem_cons_self _ _)
            have hbmem : b ∈ a :: t1 := hp.symm.subset (List.mem_cons_self _ _)
            rcases List.mem_cons.mp hamem with h | h
            · exact hne h
            rcases List.mem_cons.mp hbmem with h' | h'
            · exact hne h'.symm
            have hx := (List.pairwise_cons.mp h1).1 b h'
            have hy := (List.pairwise_cons.mp h2).1 a h
            omega
          subst hab
          rw [ih t2 hp.cons_inv (List.pairwise_cons.mp h1).2
            (List.pairwise_cons.mp h2).2]

/-- Amended C9: for every fill sequence whose timestamps are pairwise
distinct, reconstruction of any permutation of it produces exactly the
same PositionSnapshot and Lifecycle output as the timestamp-sorted
input (with tied timestamps the stable sort's secondary key is the
input order, which a shuffle changes — see the counterexample). -/
theorem reconstruction_shuffle_invariant (fills shuffled : List Fill)
    (hperm : List.Perm shuffled fills)
    (hnd : (fills.map Fill.timeMs).Nodup) :
    reconstructPositionHistory shuffled = reconstructPositionHistory fills := by
  have hsort : sortByTime shuffled = sortByTime fills := by
    apply eq_of_perm_of_timeMs_strict
    · exact (sortByTime_perm shuffled).trans (hperm.trans (sortByTime_perm fills).symm)
    · refine pairwise_lt_of_le_nodup _ (sortByTime_sorted _) ?_
      exact (((sortByTime_perm shuffled).trans hperm).map Fill.timeMs).nodup_iff.mpr hnd
    · refine pairwise_lt_of_le_nodup _ (sortByTime_sorted _) ?_
      exact ((sortByTime_perm fills).map Fill.timeMs).nodup_iff.mpr hnd
  unfold reconstructPositionHistory reconstructInto
  by_cases hf : fills = []
  · subst hf
    rw [hperm.eq_nil]
  · have hs : shuffled ≠ [] := by
      intro h
      subst h
      exact hf hperm.nil_eq.symm
    rw [if_neg hf, if_neg hs, hsort]

/-- Witness for the amended C9: two fills with distinct timestamps
reconstruct identically after swapping them. -/
theorem reconstruction_shuffle_invariant_witness :
    reconstructPositionHistory [mkFill 2 true 20 1 none, mkFill 1 true 10 1 none] =
      reconstructPositionHistory [mkFill 1 true 10 1 none, mkFill 2 true 20 1 none] :=
  reconstruction_shuffle_invariant _ _
    (List.Perm.swap (mkFill 1 true 10 1 none) (mkFill 2 true 20 1 none) [])
    (by simp [mkFill])

lemma processFill_open (s : Store) (st : TrackerState) (f : Fill)
    (h0 : st.netSize = 0) (hcur : st.currentLifecycleId = none)
    (hnew : ¬ st.netSize + (if f.side = true then f.sz else f.sz * (-1)) = 0) :
    processFill s st f =
      ({ positions := upsertPosition s.positions
           { timeMs := f.timeMs
             netSize := st.netSize + (if f.side = true then f.sz else f.sz * (-1))
             avgEntryPx := calculateAvgEntryPx st.netSize st.avgEntryPx
               (if f.side = true then f.sz else f.sz * (-1)) f.px }
         lifecycles := s.lifecycles ++
           [{ startMs := f.timeMs, endMs := none
              hasBuilderFills := isBuilderFill f
              hasNonBuilderFills := !isBuilderFill f }] },
       { netSize := st.netSize + (if f.side = true then f.sz else f.sz * (-1))
         avgEntryPx := calculateAvgEntryPx st.netSize st.avgEntryPx
           (if f.side = true then f.sz else f.sz * (-1)) f.px
         currentLifecycleId := some s.lifecycles.length
         hasBuilderFills := isBuilderFill f
         hasNonBuilderFills := !isBuilderFill f }) := by
  simp only [processFill, hcur, if_pos (And.intro h0 hnew)]
  rw [if_neg]
  intro hc
  exact hc.1 h0

lemma processFill_flat (s : Store) (st : TrackerState) (f : Fill)
    (h0 : st.netSize = 0) (hcur : st.currentLifecycleId = none)
    (hz : st.netSize + (if f.side = true then f.sz else f.sz * (-1)) = 0) :
    processFill s st f =
      ({ positions := upsertPosition s.positions
           { timeMs := f.timeMs
             netSize := st.netSize + (if f.side = true then f.sz else f.sz * (-1))
             avgEntryPx := calculateAvgEntryPx st.netSize st.avgEntryPx
               (if f.side = true then f.sz else f.sz * (-1)) f.px }
         lifecycles := s.lifecycles },
       { netSize := st.netSize + (if f.side = true then f.sz else f.sz * (-1))
         avgEntryPx := calculateAvgEntryPx st.netSize st.avgEntryPx
           (if f.side = true then f.sz else f.sz * (-1)) f.px
         currentLifecycleId := none
         hasBuilderFills := st.hasBuilderFills
         hasNonBuilderFills := st.hasNonBuilderFills }) := by
  simp only [processFill, hcur]
  rw [if_neg (fun hc => hc.1 h0)]
  rw [if_neg (fun hc => hc.2 hz)]
  simp [hcur]

lemma processFill_hold (s : Store) (st : TrackerState) (f : Fill) (i : ℕ)
    (hns : ¬ st.netSize = 0) (hcur : st.currentLifecycleId = some i)
    (hnz : ¬ st.netSize + (if f.side = true then f.sz else f.sz * (-1)) = 0) :
    processFill s st f =
      ({ positions := upsertPosition s.positions
           { timeMs := f.timeMs
             netSize := st.netSize + (if f.side = true then f.sz else f.sz * (-1))
             avgEntryPx := calculateAvgEntryPx st.netSize st.avgEntryPx
               (if f.side = true then f.sz else f.sz * (-1)) f.px }
         lifecycles := s.lifecycles },
       { netSize := st.netSize + (if f.side = true then f.sz else f.sz * (-1))
         avgEntryPx := calculateAvgEntryPx st.netSize st.avgEntryPx
           (if f.side = true then f.sz else f.sz * (-1)) f.px
         currentLifecycleId := some i
         hasBuilderFills := st.hasBuilderFills || isBuilderFill f
         hasNonBuilderFills := st.hasNonBuilderFills || !isBuilderFill f }) := by
  simp only [processFill, hcur]
  rw [if_neg (fun hc => hnz hc.2)]
  rw [if_neg (fun hc => hns hc.1)]

lemma processFill_close (s : Store) (st : TrackerState) (f : Fill) (i : ℕ)
    (hns : ¬ st.netSize = 0) (hcur : st.currentLifecycleId = some i)
    (hz : st.netSize + (if f.side = true then f.sz else f.sz * (-1)) = 0) :
    processFill s st f =
      ({ positions := upsertPosition s.positions
           { timeMs := f.timeMs
             netSize := st.netSize + (if f.side = true then f.sz else f.sz * (-1))
             avgEntryPx := calculateAvgEntryPx st.netSize st.avgEntryPx
               (if f.side = true then f.sz else f.sz * (-1)) f.px }
         lifecycles := modifyLifecycleAt
           (fun l => { l with endMs := some f.timeMs
                              hasBuilderFills := st.hasBuilderFills || isBuilderFill f
                              hasNonBuilderFills := st.hasNonBuilderFills || !isBuilderFill f })
           i s.lifecycles },
       { netSize := st.netSize + (if f.side = true then f.sz else f.sz * (-1))
         avgEntryPx := 0
         currentLifecycleId := none
         hasBuilderFills := false
         hasNonBuilderFills := false }) := by
  simp only [processFill, hcur]
  rw [if_pos (And.intro hns hz)]
  rw [if_neg (fun hc => hns hc.1)]

lemma modifyLifecycleAt_append (g : Lifecycle → Lifecycle) :
    ∀ (cs : List Lifecycle) (lo : Lifecycle),
      modifyLifecycleAt g cs.length (cs ++ [lo]) = cs ++ [g lo] := by
  intro cs lo
  induction cs with
  | nil => rfl
  | cons c cs ih => simp [modifyLifecycleAt, ih]

lemma lcBefore_disjoint (a b : Lifecycle) (h : lcBefore a b) : lcDisjoint a b := by
  obtain ⟨e, hae, hlt⟩ := h
  rintro t ⟨⟨_, hta⟩, ⟨hbs, _⟩⟩
  have := hta e hae
  omega

lemma processFill_inv (s : Store) (st : TrackerState) (f : Fill) (rest : List Fill)
    (hinv : TrackInv s st) (hb : lcBound s (f :: rest))
    (hrest : ∀ g ∈ rest, f.timeMs < g.timeMs) :
    TrackInv (processFill s st f).1 (processFill s st f).2 ∧
      lcBound (processFill s st f).1 rest := by
  obtain ⟨hpw, hcl, hshape⟩ := hinv
  cases hcur : st.currentLifecycleId with
  | none =>
      rw [hcur] at hshape
      obtain ⟨hns0, hallcl⟩ := hshape
      by_cases hz : st.netSize + (if f.side = true then f.sz else f.sz * (-1)) = 0
      · rw [processFill_flat s st f hns0 hcur hz]
        refine ⟨⟨hpw, hcl, ?_⟩, ?_⟩
        · exact ⟨hz, hallcl⟩
        · intro l hl g hg
          exact hb l hl g (List.mem_cons_of_mem f hg)
      · rw [processFill_open s st f hns0 hcur hz]
        constructor
        · refine ⟨?_, ?_, ?_⟩
          · rw [List.pairwise_append]
            refine ⟨hpw, List.pairwise_singleton _ _, ?_⟩
            intro a ha b hbm
            rw [List.mem_singleton] at hbm
            subst hbm
            have hac := hallcl a ha
            cases hae : a.endMs with
            | none => exact absurd hae hac
            | some e => exact ⟨e, hae, (hb a ha f (List.mem_cons_self f rest)).2 e hae⟩
          · intro l hl e he
            rcases List.mem_append.mp hl with hl' | hl'
            · exact hcl l hl' e he
            · rw [List.mem_singleton] at hl'
              subst hl'
              cases he
          · refine ⟨hz, s.lifecycles, _, rfl, rfl, rfl, hallcl⟩
        · intro l hl g hg
          rcases List.mem_append.mp hl with hl' | hl'
          · exact hb l hl' g (List.mem_cons_of_mem f hg)
          · rw [List.mem_singleton] at hl'
            subst hl'
            exact ⟨hrest g hg, fun e he => by cases he⟩
  | some i =>
      rw [hcur] at hshape
      obtain ⟨hns, cs, lo, hlseq, hieq, hloopen, hcscl⟩ := hshape
      have hlomem : lo ∈ s.lifecycles := by
        rw [hlseq]
        exact List.mem_append.mpr (Or.inr (List.mem_singleton.mpr rfl))
      by_cases hz : st.netSize + (if f.side = true then f.sz else f.sz * (-1)) = 0
      · rw [processFill_close s st f i hns hcur hz]
        have hmod : modifyLifecycleAt
            (fun l => { l with endMs := some f.timeMs
                               hasBuilderFills := st.hasBuilderFills || isBuilderFill f
                               hasNonBuilderFills := st.hasNonBuilderFills || !isBuilderFill f })
            i s.lifecycles =
            cs ++ [({ lo with endMs := some f.timeMs,
                              hasBuilderFills := st.hasBuilderFills || isBuilderFill f,
                              hasNonBuilderFills :=
                                st.hasNonBuilderFills || !isBuilderFill f } : Lifecycle)] := by
          rw [hlseq, hieq]
          exact modifyLifecycleAt_append _ cs lo
        constructor
        · refine ⟨?_, ?_, ?_⟩
          · rw [hmod, List.pairwise_append]
            have hpw' := List.pairwise_append.mp (hlseq ▸ hpw)
            refine ⟨hpw'.1, List.pairwise_singleton _ _, ?_⟩
            intro a ha b hbm
            rw [List.mem_singleton] at hbm
            subst hbm
            exact hpw'.2.2 a ha lo (List.mem_singleton.mpr rfl)
          · rw [hmod]
            intro l hl e he
            rcases List.mem_append.mp hl with hl' | hl'
            · exact hcl l (by rw [hlseq]; exact List.mem_append.mpr (Or.inl hl')) e he
            · rw [List.mem_singleton] at hl'
              subst hl'
              cases he
              exact (hb lo hlomem f (List.mem_cons_self f rest)).1
          · exact ⟨hz, by
              rw [hmod]
              intro l hl
              rcases List.mem_append.mp hl with hl' | hl'
              · exact hcscl l hl'
              · rw [List.mem_singleton] at hl'
                subst hl'
                simp⟩
        · rw [hmod]
          intro l hl g hg
          rcases List.mem_append.mp hl with hl' | hl'
          · exact hb l (by rw [hlseq]; exact List.mem_append.mpr (Or.inl hl')) g
              (List.mem_cons_of_mem f hg)
          · rw [List.mem_singleton] at hl'
            subst hl'
            refine ⟨lt_trans (hb lo hlomem f (List.mem_cons_self f rest)).1 (hrest g hg), ?_⟩
            intro e he
            cases he
            exact hrest g hg
      · rw [processFill_hold s st f i hns hcur hz]
        refine ⟨⟨hpw, hcl, ?_⟩, ?_⟩
        · exact ⟨hz, cs, lo, hlseq, hieq, hloopen, hcscl⟩
        · intro l hl g hg
          exact hb l hl g (List.mem_cons_of_mem f hg)

lemma foldl_processFill_inv :
    ∀ (fills : List Fill) (s : Store) (st : TrackerState),
      fills.Pairwise (fun a b => a.timeMs < b.timeMs) →
      TrackInv s st → lcBound s fills →
      TrackInv
        (fills.foldl (fun (p : Store × TrackerState) f => processFill p.1 p.2 f) (s, st)).1
        (fills.foldl (fun (p : Store × TrackerState) f => processFill p.1 p.2 f) (s, st)).2 := by
  intro fills
  induction fills with
  | nil =>
      intro s st _ hinv _
      exact hinv
  | cons f rest ih =>
      intro s st hpw hinv hb
      rw [List.foldl_cons]
      rw [List.pairwise_cons] at hpw
      obtain ⟨hinv', hb'⟩ := processFill_inv s st f rest hinv hb hpw.1
      exact ih _ _ hpw.2 hinv' hb'

/-- Amended C4: after the reconstruction pass processes any fill
sequence with pairwise-distinct timestamps for one (account,
instrument), the produced Lifecycle records satisfy all three
invariants: at most one lifecycle is open (`endMs = none`), the
lifecycle intervals are pairwise disjoint, and every closed lifecycle
has `startMs` strictly less than `endMs`. -/
theorem lifecycle_invariants (fills : List Fill)
    (hnd : (fills.map Fill.timeMs).Nodup) :
    (reconstructPositionHistory fills).lifecycles.countP
        (fun l => l.endMs == none) ≤ 1 ∧
    (reconstructPositionHistory fills).lifecycles.Pairwise lcDisjoint ∧
    (∀ l ∈ (reconstructPositionHistory fills).lifecycles,
        ∀ e, l.endMs = some e → l.startMs < e) := by
  unfold reconstructPositionHistory reconstructInto
  by_cases hf : fills = []
  · rw [if_pos hf]
    refine ⟨by simp, List.Pairwise.nil, ?_⟩
    intro l hl
    cases hl
  · rw [if_neg hf]
    have hsorted : (sortByTime fills).Pairwise (fun a b => a.timeMs < b.timeMs) :=
      pairwise_lt_of_le_nodup _ (sortByTime_sorted fills)
        (((sortByTime_perm fills).map Fill.timeMs).nodup_iff.mpr hnd)
    have hinv0 : TrackInv { positions := [], lifecycles := [] } initialTrackerState := by
      refine ⟨List.Pairwise.nil, ?_, ?_⟩
      · intro l hl
        cases hl
      · exact ⟨rfl, fun l hl => absurd hl (List.not_mem_nil l)⟩
    have hb0 : lcBound { positions := [], lifecycles := [] } (sortByTime fills) :=
      fun l hl => absurd hl (List.not_mem_nil l)
    have hres := foldl_processFill_inv (sortByTime fills) _ _ hsorted hinv0 hb0
    set r := (sortByTime fills).foldl
      (fun (p : Store × TrackerState) f => processFill p.1 p.2 f)
      ({ positions := [], lifecycles := [] }, initialTrackerState) with hr
    obtain ⟨hpw, hcl, hshape⟩ := hres
    cases hcur : r.2.currentLifecycleId with
    | none =>
        rw [hcur] at hshape
        have hfl : flushOpen r = r.1 := by
          unfold flushOpen
          rw [hcur]
        rw [hfl]
        refine ⟨?_, hpw.imp (lcBefore_disjoint _ _), hcl⟩
        rw [List.countP_eq_zero.mpr ?_]
        · exact Nat.zero_le 1
        · intro l hl
          simpa using hshape.2 l hl
    | some i =>
        rw [hcur] at hshape
        obtain ⟨hns, cs, lo, hlseq, hieq, hloopen, hcscl⟩ := hshape
        have hfl0 : flushOpen r =
            { positions := r.1.positions
              lifecycles := modifyLifecycleAt
                (fun l => { l with hasBuilderFills := r.2.hasBuilderFills
                                   hasNonBuilderFills := r.2.hasNonBuilderFills })
                i r.1.lifecycles } := by
          unfold flushOpen
          rw [hcur]
        have hfl : flushOpen r =
            { positions := r.1.positions
              lifecycles := cs ++ [({ lo with
                  hasBuilderFills := r.2.hasBuilderFills,
                  hasNonBuilderFills := r.2.hasNonBuilderFills } : Lifecycle)] } := by
          rw [hfl0, hlseq, hieq, modifyLifecycleAt_append]
        rw [hfl]
        have hpw' := List.pairwise_append.mp (hlseq ▸ hpw)
        refine ⟨?_, ?_, ?_⟩
        · rw [List.countP_append]
          have h1 : cs.countP (fun l => l.endMs == none) = 0 := by
            rw [List.countP_eq_zero]
            intro l hl
            simpa using hcscl l hl
          rw [h1]
          by_cases hlo : lo.endMs = none <;> simp [List.countP_cons, hlo]
        · rw [List.pairwise_append]
          refine ⟨hpw'.1.imp (lcBefore_disjoint _ _), List.pairwise_singleton _ _, ?_⟩
          intro a ha b hbm
          rw [List.mem_singleton] at hbm
          subst hbm
          exact lcBefore_disjoint _ _ (hpw'.2.2 a ha lo (List.mem_singleton.mpr rfl))
        · intro l hl e he
          rcases List.mem_append.mp hl with hl' | hl'
          · exact hcl l (by rw [hlseq]; exact List.mem_append.mpr (Or.inl hl')) e he
          · rw [List.mem_singleton] at hl'
            subst hl'
            rw [show ({ lo with
                hasBuilderFills := r.2.hasBuilderFills,
                hasNonBuilderFills := r.2.hasNonBuilderFills } : Lifecycle).endMs = lo.endMs
              from rfl, hloopen] at he
            cases he

/-- Witness for the amended C4: the two-fill round trip at distinct
timestamps `100` and `200` satisfies all three invariants. -/
theorem lifecycle_invariants_witness :
    (reconstructPositionHistory
        [mkFill 100 true 50 1 none, mkFill 200 false 60 1 none]).lifecycles.countP
        (fun l => l.endMs == none) ≤ 1 ∧
    (reconstructPositionHistory
        [mkFill 100 true 50 1 none, mkFill 200 false 60 1 none]).lifecycles.Pairwise
        lcDisjoint ∧
    (∀ l ∈ (reconstructPositionHistory
        [mkFill 100 true 50 1 none, mkFill 200 false 60 1 none]).lifecycles,
        ∀ e, l.endMs = some e → l.startMs < e) :=
  lifecycle_invariants [mkFill 100 true 50 1 none, mkFill 200 false 60 1 none]
    (by simp [mkFill])

end Ledger
